import Mathlib

/-!
# Cloudreve `models/cache.go`: the database-backed cache store

A shallow embedding of `src/models/cache.go`.  The Go functions touch three
things that live outside the file: the gorm handle `DB`, the wall clock
(`time.Now`) and standard output (`fmt.Printf`).  They are made explicit in a
`World` value that every function receives and returns.

* `rows` is the content of the `caches` table in primary-key order.
* `faults` is the schedule of the upcoming SQL statements: the head decides
  whether the next statement executes (`none`) or fails with a persistence
  error (`some e`); an exhausted schedule means no further failure.
* `now` is the reading the next `time.Now()` call returns, `clock` the
  readings after it.
* `log` is what has been printed so far, one entry per `Printf` call.

A Go `error` is identified with its message (`err.Error()`), `nil` is `none`.
A Go `string` used as a payload and a `[]byte` are both a list of bytes, so
`string(serialized)` and `[]byte(m.Value)` are the identity.  A `time.Time` is
a number of nanoseconds, the zero `Time` being `0`; a `time.Duration` is a
64-bit signed number of nanoseconds.
-/

namespace Cloudreve

/-- A Go `error`, identified with its message. -/
abbrev GoError := String

/-- A Go `[]byte`, and a Go `string` holding binary data. -/
abbrev Bytes := List UInt8

/-- A `time.Time`, in nanoseconds. -/
abbrev Time := Int

/-- The struct `Cache`.  Of the embedded `gorm.Model` only the soft-delete
marker `DeletedAt` is kept: the primary key is the position in the table and
the audit timestamps are never read. -/
structure Cache where
  DeletedAt : Option Time
  KeyName : String
  Value : Bytes
  ExpiredAt : Time
  deriving DecidableEq, Repr

/-- The zero value of `Cache` (`var m Cache`, `Cache{}`). -/
def Cache.zero : Cache :=
  { DeletedAt := none, KeyName := "", Value := [], ExpiredAt := 0 }

/-- Everything outside `cache.go` that its functions read or change. -/
structure World where
  rows : List Cache
  faults : List (Option GoError)
  now : Time
  clock : List Time
  log : List String
  deriving DecidableEq, Repr

/-! ## The collaborators: clock, SQL statements, gob -/

/-- One `time.Now()` call: returns the current reading and moves the clock to
the next one, if the schedule has one. -/
def timeNow (w : World) : Time × World :=
  match w.clock with
  | [] => (w.now, w)
  | t :: ts => (w.now, { w with now := t, clock := ts })

/-- Takes the outcome of the next SQL statement off the schedule. -/
def popFault (w : World) : Option GoError × World :=
  match w.faults with
  | [] => (none, w)
  | f :: fs => (f, { w with faults := fs })

/-- The message of `gorm.ErrRecordNotFound`. -/
def errRecordNotFound : GoError := "record not found"

/-- The capacity of the `Value` column, `varbinary(2048)`. -/
def valueCapacity : Nat := 2048

/-- Modelled from the spec: the gorm handle `DB` is declared outside
`cache.go`.  The statement
`DB.Unscoped().Where("key_name = ?", key).Delete(&Cache{})` is the `deleteByKey`
of the spec: a hard delete of every row with that key, soft-deleted rows
included, which succeeds when there is none.  A statement that fails changes
nothing. -/
def dbDeleteWhereKey (w : World) (key : String) : Option GoError × World :=
  match popFault w with
  | (some e, w1) => (some e, w1)
  | (none, w1) => (none, { w1 with rows := w1.rows.filter (fun r => r.KeyName != key) })

/-- Modelled from the spec: the gorm handle `DB` is declared outside
`cache.go`.  The statement `DB.Unscoped().Where("1 = 1").Delete(&Cache{})` is
the `deleteAll` of the spec: a hard delete of every row, soft-deleted ones
included. -/
def dbDeleteAll (w : World) : Option GoError × World :=
  match popFault w with
  | (some e, w1) => (some e, w1)
  | (none, w1) => (none, { w1 with rows := [] })

/-- Modelled from the spec: the gorm handle `DB` is declared outside
`cache.go`.  The query `DB.Where("key_name = ?", key).First(&m)` is the
`find-first-where` boundary call: the first row in primary-key order with
that key that is not soft-deleted.  When the query fails, or finds nothing
(`record not found`), `m` keeps its zero value. -/
def dbFirstWhereKey (w : World) (key : String) : (Cache × Option GoError) × World :=
  match popFault w with
  | (some e, w1) => ((Cache.zero, some e), w1)
  | (none, w1) =>
    match w1.rows.find? (fun r => r.KeyName == key && r.DeletedAt.isNone) with
    | none => ((Cache.zero, some errRecordNotFound), w1)
    | some r => ((r, none), w1)

/-- Modelled from the spec: the gorm handle `DB` is declared outside
`cache.go`.  The statement `DB.Save(&cache)` for a record with a zero primary
key, as `Set` builds it, is the `insert` boundary call.  It is refused when
the payload exceeds the column capacity (a value over the bound fails
explicitly, it is not truncated) and when the unique index
`idx_only_one_key_name` already holds the key (the index covers soft-deleted
rows as well); otherwise the row is appended, stored as given. -/
def dbSave (w : World) (cache : Cache) : Option GoError × World :=
  match popFault w with
  | (some e, w1) => (some e, w1)
  | (none, w1) =>
    if valueCapacity < cache.Value.length then
      (some "Data too long for column 'value'", w1)
    else if w1.rows.any (fun r => r.KeyName == cache.KeyName) then
      (some "Duplicate entry for key 'idx_only_one_key_name'", w1)
    else
      (none, { w1 with rows := w1.rows ++ [cache] })

/-- The package `encoding/gob` as used by `serializer` and `deserializer`:
`Encode` is `gob.NewEncoder(&buffer).Encode(item{Value: v})` followed by
`buffer.Bytes()`, `Decode` is `gob.NewDecoder(bytes.NewReader(b)).Decode(&res)`
followed by `res.Value`.  The type `α` stands for `interface{}`. -/
structure Gob (α : Type) where
  Encode : α → Except GoError Bytes
  Decode : Bytes → Except GoError α

/-- The int64 result of an arithmetic operation whose exact result is `x`. -/
def wrapInt64 (x : Int) : Int := (x + 2 ^ 63) % 2 ^ 64 - 2 ^ 63

/-- The constant `time.Second`. -/
def Second : Int := 1000000000

/-- The constant `time.Hour`. -/
def Hour : Int := 3600 * Second

/-- The method `Time.Add`. -/
def timeAdd (t : Time) (d : Int) : Time := t + d

/-- The method `Time.After`. -/
def timeAfter (t u : Time) : Bool := decide (u < t)

/-! ## The entry store -/

/-- The function `DeleteCacheByKey`. -/
def DeleteCacheByKey (w : World) (key : String) : Option GoError × World :=
  dbDeleteWhereKey w key

/-- The function `DeleteAllCache`. -/
def DeleteAllCache (w : World) : Option GoError × World :=
  dbDeleteAll w

/-- The function `GetCacheByKey`. -/
def GetCacheByKey (w : World) (key : String) : (Cache × Option GoError) × World :=
  match dbFirstWhereKey w key with
  | ((m, some e), w1) => ((m, some e), w1)
  | ((m, none), w1) =>
    match timeNow w1 with
    | (now, w2) =>
      if timeAfter now m.ExpiredAt then
        match DeleteCacheByKey w2 key with
        | (some err, w3) => ((m, some err), w3)
        | (none, w3) => ((m, some "expired cache"), w3)
      else
        ((m, none), w2)

/-- The function `SaveCache`: the result of the delete is discarded. -/
def SaveCache (w : World) (cache : Cache) : Option GoError × World :=
  match DeleteCacheByKey w cache.KeyName with
  | (_, w1) => dbSave w1 cache

/-! ## The codec -/

/-- The function `serializer`. -/
def serializer {α : Type} (g : Gob α) (value : α) : Except GoError Bytes :=
  match g.Encode value with
  | .error err => .error err
  | .ok b => .ok b

/-- The function `deserializer`. -/
def deserializer {α : Type} (g : Gob α) (value : Bytes) : Except GoError α :=
  match g.Decode value with
  | .error err => .error err
  | .ok v => .ok v

/-! ## The cache façade -/

/-- The rendering of an `error` by the verb `%v`. -/
def fmtErr : Option GoError → String
  | none => "<nil>"
  | some e => e

/-- The rendering of a `[]string` by the verb `%+v`. -/
def fmtKeys (keys : List String) : String :=
  "[" ++ " ".intercalate keys ++ "]"

/-- One `fmt.Printf` call. -/
def printf (w : World) (line : String) : World :=
  { w with log := w.log ++ [line] }

/-- The method `DBCacheStore.Set`.  The argument `ttl` is a Go `int`; the
product `time.Duration(ttl) * time.Second` is an int64 multiplication. -/
def Set {α : Type} (g : Gob α) (w : World) (key : String) (value : α) (ttl : Int) :
    Option GoError × World :=
  match serializer g value with
  | .error err => (some err, w)
  | .ok serialized =>
    let m : Cache := { Cache.zero with KeyName := key, Value := serialized }
    match timeNow w with
    | (now, w1) =>
      let m : Cache :=
        if ttl > 0 then
          { m with ExpiredAt := timeAdd now (wrapInt64 (ttl * Second)) }
        else
          { m with ExpiredAt := timeAdd now (1 * Hour) }
      match SaveCache w1 m with
      | (some err, w2) =>
        (some err, printf w2 ("DBCacheStore Set: " ++ key ++ ", " ++ err ++ " \n"))
      | (none, w2) => (none, w2)

/-- The method `DBCacheStore.Get`.  The Go result `(nil, false)` is `none`,
the result `(finalValue, true)` is `some finalValue`. -/
def Get {α : Type} (g : Gob α) (w : World) (key : String) : Option α × World :=
  match GetCacheByKey w key with
  | ((m, err), w1) =>
    let w2 : World :=
      match err with
      | some e =>
        if e != errRecordNotFound then
          printf w1 ("DBCacheStore Get: " ++ key ++ ", " ++ e ++ " \n")
        else w1
      | none => w1
    match err with
    | some _ => (none, w2)
    | none =>
      match deserializer g m.Value with
      | .error _ => (none, w2)
      | .ok finalValue => (some finalValue, w2)

/-- A Go `map[string]interface{}`: at most one entry per key. -/
abbrev GoMap (α : Type) := List (String × α)

/-- The assignment `m[key] = val`. -/
def GoMap.set {α : Type} (m : GoMap α) (key : String) (val : α) : GoMap α :=
  m.filter (fun e => e.1 != key) ++ [(key, val)]

/-- The lookup `m[key]` with its presence flag. -/
def GoMap.get {α : Type} (m : GoMap α) (key : String) : Option α :=
  (m.find? (fun e => e.1 == key)).map Prod.snd

/-- The loop of `Gets`, with the variables `res` and `missed`.  The Go
parameter `prefix` is written `pfx` here and below. -/
def GetsLoop {α : Type} (g : Gob α) (pfx : String) :
    List String → GoMap α → List String → World → (GoMap α × List String) × World
  | [], res, missed, w => ((res, missed), w)
  | key :: rest, res, missed, w =>
    match Get g w (pfx ++ key) with
    | (none, w1) => GetsLoop g pfx rest res (missed ++ [key]) w1
    | (some val, w1) => GetsLoop g pfx rest (res.set key val) missed w1

/-- The method `DBCacheStore.Gets`. -/
def Gets {α : Type} (g : Gob α) (w : World) (keys : List String) (pfx : String) :
    (GoMap α × List String) × World :=
  GetsLoop g pfx keys [] [] w

/-- The method `DBCacheStore.Sets`.  The map `values` is given as the list of
its entries in the order the `range` loop visits them.  The parameter
`prefix` is not used by the body. -/
def Sets {α : Type} (g : Gob α) (w : World) (values : List (String × α)) (pfx : String) :
    Option GoError × World :=
  match values with
  | [] => (none, w)
  | (key, value) :: rest =>
    match Set g w key value 0 with
    | (some err, w1) => (some err, w1)
    | (none, w1) => Sets g w1 rest pfx

/-- The loop of `Delete`; `keys` is the whole argument, printed at each turn. -/
def DeleteLoop (keys : List String) (pfx : String) : List String → World → Option GoError × World
  | [], w => (none, w)
  | key :: rest, w =>
    match DeleteCacheByKey w (pfx ++ key) with
    | (err, w1) =>
      let w2 := printf w1 ("DBCacheStore Delete: " ++ fmtKeys keys ++ ", " ++ fmtErr err ++ " \n")
      match err with
      | some e => (some e, w2)
      | none => DeleteLoop keys pfx rest w2

/-- The method `DBCacheStore.Delete`. -/
def Delete (w : World) (keys : List String) (pfx : String) : Option GoError × World :=
  DeleteLoop keys pfx keys w

/-- The method `DBCacheStore.Deletes`. -/
def Deletes (w : World) (keys : List String) (pfx : String) : Option GoError × World :=
  Delete w keys pfx

/-- The method `DBCacheStore.DeleteAll`. -/
def DeleteAll (w : World) : Option GoError × World :=
  DeleteAllCache w

/-! ## Vocabulary of the statements -/

/-- The outcome scheduled for the `n`-th upcoming SQL statement. -/
def faultAt (w : World) (n : Nat) : Option GoError := w.faults.getD n none

/-- The row a keyed query finds: the first one with that key that is not
soft-deleted. -/
def liveRow (w : World) (key : String) : Option Cache :=
  w.rows.find? (fun r => r.KeyName == key && r.DeletedAt.isNone)

/-- The rows stored under a key, soft-deleted ones included. -/
def rowsOf (w : World) (key : String) : List Cache :=
  w.rows.filter (fun r => r.KeyName == key)

/-- The uniqueness constraint of the table: no two rows share a key. -/
def UniqueKeys (rows : List Cache) : Prop := (rows.map Cache.KeyName).Nodup

instance (rows : List Cache) : Decidable (UniqueKeys rows) := by
  unfold UniqueKeys; infer_instance

/-- The line `Get` prints for the error `e`. -/
def getLogLine (key : String) (e : GoError) : String :=
  "DBCacheStore Get: " ++ key ++ ", " ++ e ++ " \n"

/-- A gob stand-in for concrete runs: a number below 256 is encoded as a tag
byte followed by the number, everything else is refused. -/
def sampleGob : Gob Nat :=
  { Encode := fun n =>
      if n < 256 then .ok [1, UInt8.ofNat n] else .error "gob: type not supported"
    Decode := fun b =>
      match b with
      | [1, x] => .ok x.toNat
      | _ => .error "gob: unexpected data" }

/-- A world for concrete runs: an empty table, a working database, the clock
at 100 and then at 200, 300 and 400. -/
def sampleWorld : World :=
  { rows := [], faults := [], now := 100, clock := [200, 300, 400], log := [] }

/-- A world whose table holds one row for the key `a`, expired since the
clock reading 50, with a working database and the clock at 100. -/
def expiredWorld : World :=
  { rows := [{ DeletedAt := none, KeyName := "a", Value := [1, 5], ExpiredAt := 50 }],
    faults := [], now := 100, clock := [], log := [] }

/-- A world with an empty table whose next SQL statement fails and whose
later statements execute. -/
def faultyWorld : World :=
  { rows := [], faults := [some "driver: bad connection"], now := 100, clock := [], log := [] }

/-- A row for the key `a` as `Set` builds it. -/
def sampleRow : Cache :=
  { DeletedAt := none, KeyName := "a", Value := [1, 5], ExpiredAt := 3000000100 }

/-- The largest time to live, in seconds, whose nanosecond count fits int64. -/
def maxTtl : Int := 9223372036

/-- A world whose table holds a row keyed `pa` and a row keyed `b`, with a
working database. -/
def prefixedWorld : World :=
  { rows := [{ DeletedAt := none, KeyName := "pa", Value := [1, 5], ExpiredAt := 500 },
             { DeletedAt := none, KeyName := "b", Value := [1, 6], ExpiredAt := 500 }],
    faults := [], now := 100, clock := [], log := [] }

/-- The outcomes of the successive `Get` calls of `Gets`, each at its turn,
in the order of the key list. -/
def GetsTurns {α : Type} (g : Gob α) (pfx : String) : List String → World → List (Option α)
  | [], _ => []
  | key :: rest, w =>
    (Get g w (pfx ++ key)).1 :: GetsTurns g pfx rest (Get g w (pfx ++ key)).2

/-! ## The collaborators, step by step -/

theorem popFault_eq (w : World) :
    popFault w = (faultAt w 0, { w with faults := w.faults.tail }) := by
  rcases w with ⟨rows, faults, now, clock, log⟩
  cases faults <;> rfl

theorem timeNow_eq (w : World) :
    timeNow w = (w.now, { w with now := w.clock.headD w.now, clock := w.clock.tail }) := by
  rcases w with ⟨rows, faults, now, clock, log⟩
  cases clock <;> rfl

theorem faultAt_tail (w : World) (n : Nat) (rows : List Cache) (now : Time) (clock : List Time)
    (log : List String) :
    faultAt { rows := rows, faults := w.faults.tail, now := now, clock := clock, log := log } n
      = faultAt w (n + 1) := by
  unfold faultAt
  cases h : w.faults <;> simp

theorem dbDeleteWhereKey_eq (w : World) (key : String) :
    dbDeleteWhereKey w key =
      match faultAt w 0 with
      | some e => (some e, { w with faults := w.faults.tail })
      | none => (none, { w with faults := w.faults.tail,
                                rows := w.rows.filter (fun r => r.KeyName != key) }) := by
  unfold dbDeleteWhereKey
  rw [popFault_eq]
  cases faultAt w 0 <;> rfl

theorem dbFirstWhereKey_eq (w : World) (key : String) :
    dbFirstWhereKey w key =
      match faultAt w 0 with
      | some e => ((Cache.zero, some e), { w with faults := w.faults.tail })
      | none =>
        match liveRow w key with
        | none => ((Cache.zero, some errRecordNotFound), { w with faults := w.faults.tail })
        | some r => ((r, none), { w with faults := w.faults.tail }) := by
  unfold dbFirstWhereKey liveRow
  rw [popFault_eq]
  cases faultAt w 0 <;> rfl

theorem dbSave_eq (w : World) (cache : Cache) :
    dbSave w cache =
      match faultAt w 0 with
      | some e => (some e, { w with faults := w.faults.tail })
      | none =>
        if valueCapacity < cache.Value.length then
          (some "Data too long for column 'value'", { w with faults := w.faults.tail })
        else if w.rows.any (fun r => r.KeyName == cache.KeyName) then
          (some "Duplicate entry for key 'idx_only_one_key_name'",
            { w with faults := w.faults.tail })
        else
          (none, { w with faults := w.faults.tail, rows := w.rows ++ [cache] }) := by
  unfold dbSave
  rw [popFault_eq]
  cases faultAt w 0 <;> rfl

/-- The five ways through `GetCacheByKey`. -/
theorem GetCacheByKey_eq (w : World) (key : String) :
    GetCacheByKey w key =
      match faultAt w 0 with
      | some e => ((Cache.zero, some e), { w with faults := w.faults.tail })
      | none =>
        match liveRow w key with
        | none => ((Cache.zero, some errRecordNotFound), { w with faults := w.faults.tail })
        | some r =>
          if r.ExpiredAt < w.now then
            match faultAt w 1 with
            | some e =>
              ((r, some e), { w with faults := w.faults.tail.tail,
                                     now := w.clock.headD w.now, clock := w.clock.tail })
            | none =>
              ((r, some "expired cache"),
                { w with faults := w.faults.tail.tail,
                         now := w.clock.headD w.now, clock := w.clock.tail,
                         rows := w.rows.filter (fun r => r.KeyName != key) })
          else
            ((r, none), { w with faults := w.faults.tail,
                                 now := w.clock.headD w.now, clock := w.clock.tail }) := by
  unfold GetCacheByKey
  rw [dbFirstWhereKey_eq]
  cases h0 : faultAt w 0 with
  | some e => rfl
  | none =>
    cases hr : liveRow w key with
    | none => rfl
    | some r =>
      simp only [timeNow_eq, timeAfter, DeleteCacheByKey, dbDeleteWhereKey_eq, faultAt_tail]
      by_cases hx : r.ExpiredAt < w.now
      · simp only [hx, decide_True, if_true]
        cases h1 : faultAt w 1 <;> rfl
      · simp only [hx, decide_False, if_false]
        rfl

/-- The five ways through `Get`. -/
theorem Get_eq {α : Type} (g : Gob α) (w : World) (key : String) :
    Get g w key =
      match faultAt w 0 with
      | some e =>
        (none,
          if e != errRecordNotFound then
            printf { w with faults := w.faults.tail } (getLogLine key e)
          else { w with faults := w.faults.tail })
      | none =>
        match liveRow w key with
        | none => (none, { w with faults := w.faults.tail })
        | some r =>
          if r.ExpiredAt < w.now then
            match faultAt w 1 with
            | some e =>
              (none,
                if e != errRecordNotFound then
                  printf { w with faults := w.faults.tail.tail,
                                  now := w.clock.headD w.now, clock := w.clock.tail }
                    (getLogLine key e)
                else { w with faults := w.faults.tail.tail,
                              now := w.clock.headD w.now, clock := w.clock.tail })
            | none =>
              (none,
                printf { w with faults := w.faults.tail.tail,
                                now := w.clock.headD w.now, clock := w.clock.tail,
                                rows := w.rows.filter (fun r => r.KeyName != key) }
                  (getLogLine key "expired cache"))
          else
            (match deserializer g r.Value with
              | .error _ => none
              | .ok v => some v,
             { w with faults := w.faults.tail,
                      now := w.clock.headD w.now, clock := w.clock.tail }) := by
  unfold Get
  rw [GetCacheByKey_eq]
  cases h0 : faultAt w 0 with
  | some e => by_cases he : (e != errRecordNotFound) = true <;> simp [he, getLogLine]
  | none =>
    cases hr : liveRow w key with
    | none => simp
    | some r =>
      by_cases hx : r.ExpiredAt < w.now
      · simp only [hx, if_true]
        cases h1 : faultAt w 1 with
        | some e => by_cases he : (e != errRecordNotFound) = true <;> simp [he, getLogLine]
        | none =>
          have hne : (("expired cache" : String) != errRecordNotFound) = true := by decide
          simp [hne, getLogLine]
      · simp only [hx, if_false]
        cases hd : deserializer g r.Value <;> simp

theorem filter_ne_of_not_any (rows : List Cache) (key : String)
    (h : rows.any (fun r => r.KeyName == key) = false) :
    rows.filter (fun r => r.KeyName != key) = rows := by
  rw [List.filter_eq_self]
  intro r hr
  have := (List.any_eq_false.mp h) r hr
  simpa [bne] using this

theorem any_filter_ne (rows : List Cache) (key : String) :
    (rows.filter (fun r => r.KeyName != key)).any (fun r => r.KeyName == key) = false := by
  rw [List.any_eq_false]
  intro r hr
  have := (List.mem_filter.mp hr).2
  simpa [bne] using this

/-- The two steps of `SaveCache`: the first statement is the delete, whose
outcome only decides which rows the insert meets; the second is the insert. -/
theorem SaveCache_eq (w : World) (cache : Cache) :
    SaveCache w cache =
      dbSave
        (match faultAt w 0 with
          | some _ => { w with faults := w.faults.tail }
          | none => { w with faults := w.faults.tail,
                             rows := w.rows.filter (fun r => r.KeyName != cache.KeyName) })
        cache := by
  unfold SaveCache DeleteCacheByKey
  rw [dbDeleteWhereKey_eq]
  cases faultAt w 0 <;> rfl

/-- A `SaveCache` that returns nil has run its insert on a table without the
key and leaves the new row last. -/
theorem SaveCache_ok (w w1 : World) (cache : Cache) (h : SaveCache w cache = (none, w1)) :
    w1.rows = w.rows.filter (fun r => r.KeyName != cache.KeyName) ++ [cache]
      ∧ w1.log = w.log ∧ faultAt w 1 = none ∧ cache.Value.length ≤ valueCapacity := by
  rw [SaveCache_eq, dbSave_eq] at h
  cases h0 : faultAt w 0 with
  | some e =>
    simp only [h0, faultAt_tail] at h
    cases h1 : faultAt w 1 with
    | some e1 => simp [h1] at h
    | none =>
      simp only [h1] at h
      split_ifs at h with hc hd
      · simp at h
      · simp at h
      · have hd2 : w.rows.any (fun r => r.KeyName == cache.KeyName) = false := by
          simpa using hd
        rw [filter_ne_of_not_any _ _ hd2]
        simp only [Prod.mk.injEq, true_and] at h
        subst h
        exact ⟨rfl, rfl, rfl, by omega⟩
  | none =>
    simp only [h0, faultAt_tail] at h
    cases h1 : faultAt w 1 with
    | some e1 => simp [h1] at h
    | none =>
      simp only [h1] at h
      split_ifs at h with hc hd
      · simp at h
      · simp at h
      · simp only [Prod.mk.injEq, true_and] at h
        subst h
        exact ⟨rfl, rfl, rfl, by omega⟩

/-- The row `Set` builds for a key, a payload and a time to live, at the
clock reading `now`. -/
theorem Set_ok {α : Type} (g : Gob α) (w w1 : World) (key : String) (value : α) (ttl : Int)
    (h : Set g w key value ttl = (none, w1)) :
    ∃ b, serializer g value = .ok b ∧ b.length ≤ valueCapacity ∧
      w1.rows = w.rows.filter (fun r => r.KeyName != key) ++
        [{ DeletedAt := none, KeyName := key, Value := b,
           ExpiredAt := w.now + (if ttl > 0 then wrapInt64 (ttl * Second)
                                 else 1 * Hour) }]
      ∧ w1.log = w.log := by
  unfold Set at h
  cases hs : serializer g value with
  | error e => simp [hs] at h
  | ok b =>
    simp only [hs, timeNow_eq] at h
    refine ⟨b, rfl, ?_⟩
    split at h
    · simp at h
    · rename_i w2 hsave
      simp only [Prod.mk.injEq, true_and] at h
      subst h
      have hok := SaveCache_ok _ _ _ hsave
      by_cases ht : ttl > 0
      · simp only [ht, if_true, Cache.zero, timeAdd] at hok ⊢
        exact ⟨hok.2.2.2, hok.1, hok.2.1⟩
      · simp only [ht, if_false, Cache.zero, timeAdd] at hok ⊢
        exact ⟨hok.2.2.2, hok.1, hok.2.1⟩

theorem liveRow_after_insert (w : World) (rows : List Cache) (key : String) (c : Cache)
    (hk : c.KeyName = key) (hd : c.DeletedAt = none)
    (hw : w.rows = rows.filter (fun r => r.KeyName != key) ++ [c]) :
    liveRow w key = some c := by
  unfold liveRow
  rw [hw, List.find?_append]
  have h1 : (rows.filter (fun r => r.KeyName != key)).find?
      (fun r => r.KeyName == key && r.DeletedAt.isNone) = none := by
    rw [List.find?_eq_none]
    intro r hr
    have := (List.mem_filter.mp hr).2
    simp only [bne_iff_ne, ne_eq] at this
    simp [this]
  rw [h1]
  simp [hk, hd]

theorem rowsOf_after_insert (w : World) (rows : List Cache) (key : String) (c : Cache)
    (hk : c.KeyName = key)
    (hw : w.rows = rows.filter (fun r => r.KeyName != key) ++ [c]) :
    rowsOf w key = [c] := by
  unfold rowsOf
  rw [hw, List.filter_append]
  have h1 : (rows.filter (fun r => r.KeyName != key)).filter (fun r => r.KeyName == key) = [] := by
    rw [List.filter_eq_nil_iff]
    intro r hr
    have := (List.mem_filter.mp hr).2
    simpa [bne] using this
  rw [h1]
  simp [hk]

theorem rowsOf_filter_ne (rows : List Cache) (faults : List (Option GoError)) (now : Time)
    (clock : List Time) (log : List String) (key : String) :
    rowsOf { rows := rows.filter (fun r => r.KeyName != key), faults := faults, now := now,
             clock := clock, log := log } key = [] := by
  unfold rowsOf
  rw [List.filter_eq_nil_iff]
  intro r hr
  have := (List.mem_filter.mp hr).2
  simpa [bne] using this

theorem liveRow_mem_rowsOf (w : World) (key : String) (r : Cache) (h : liveRow w key = some r) :
    r ∈ rowsOf w key := by
  unfold liveRow at h
  unfold rowsOf
  have hm := List.mem_of_find?_eq_some h
  have hp := List.find?_some h
  simp only [Bool.and_eq_true] at hp
  exact List.mem_filter.mpr ⟨hm, hp.1⟩

/-- C1. Round trip of `Set` and `Get`: when `Set` stores an encodable value
under a key and returns nil, and nothing else touches the table, a `Get` of
the key whose query reaches the database at a clock reading not after the
expiry `Set` computed returns the value. -/
theorem Set_Get_round_trip {α : Type} (g : Gob α) (w w1 wg : World) (k : String) (v : α)
    (ttl : Int)
    (henc : ∃ b, serializer g v = .ok b ∧ deserializer g b = .ok v)
    (hset : Set g w k v ttl = (none, w1))
    (hrows : wg.rows = w1.rows)
    (hdb : faultAt wg 0 = none)
    (htime : wg.now ≤ w.now + (if ttl > 0 then wrapInt64 (ttl * Second)
                                else 1 * Hour)) :
    (Get g wg k).1 = some v := by
  obtain ⟨b, hb, hdec⟩ := henc
  obtain ⟨b1, hb1, _, hr, _⟩ := Set_ok g w w1 k v ttl hset
  rw [hb] at hb1
  cases hb1
  have hlive := liveRow_after_insert wg w.rows k _ rfl rfl (hrows.trans hr)
  rw [Get_eq, hdb]
  simp only [hlive]
  rw [if_neg (by simp only [not_lt]; exact htime)]
  simp [hdec]

theorem Set_Get_round_trip_witness :
    (Get sampleGob (Set sampleGob sampleWorld "a" 5 3).2 "a").1 = some 5 :=
  Set_Get_round_trip sampleGob sampleWorld (Set sampleGob sampleWorld "a" 5 3).2
    (Set sampleGob sampleWorld "a" 5 3).2 "a" 5 3 ⟨[1, 5], rfl, rfl⟩
    (by decide) rfl (by decide) (by decide)

theorem wrapInt64_of_range (x : Int) (hlo : -(2 ^ 63) ≤ x) (hhi : x < 2 ^ 63) :
    wrapInt64 x = x := by
  unfold wrapInt64
  omega

/-- C2. Lazy expiry: when the query of `Get` reaches the database and finds
the row `r`, then, the purge statement executing, `Get` reports a miss and
leaves no row under the key exactly when the clock is strictly after
`r.ExpiredAt`; when the clock is not after it (equality included) the row is
returned by `GetCacheByKey`, `Get` yields its decoded payload and the table
is unchanged.  In particular a `Get` after the expiry written by a
successful `Set` misses and leaves no row under the key. -/
theorem Get_lazy_expiry {α : Type} (g : Gob α) (w : World) (k : String) (r : Cache)
    (hdb : faultAt w 0 = none) (hrow : liveRow w k = some r) :
    (faultAt w 1 = none →
      (((Get g w k).1 = none ∧ rowsOf (Get g w k).2 k = []) ↔ r.ExpiredAt < w.now)) ∧
    (¬ r.ExpiredAt < w.now →
      (GetCacheByKey w k).1 = (r, none) ∧
      (Get g w k).1 = (match deserializer g r.Value with
                        | .error _ => none
                        | .ok v => some v) ∧
      (Get g w k).2.rows = w.rows) ∧
    (∀ (w0 w1 : World) (v : α) (ttl : Int),
      Set g w0 k v ttl = (none, w1) → w.rows = w1.rows → faultAt w 1 = none →
      w0.now + (if ttl > 0 then wrapInt64 (ttl * Second) else 1 * Hour) < w.now →
      (Get g w k).1 = none ∧ rowsOf (Get g w k).2 k = []) ∧
    (∀ (w0 w1 : World) (v : α) (ttl : Int),
      Set g w0 k v ttl = (none, w1) → w.rows = w1.rows → faultAt w 1 = none →
      0 < ttl → ttl * Second < 2 ^ 63 → w0.now + ttl * Second < w.now →
      (Get g w k).1 = none ∧ rowsOf (Get g w k).2 k = []) := by
  have hexp : faultAt w 1 = none → r.ExpiredAt < w.now →
      (Get g w k).1 = none ∧ rowsOf (Get g w k).2 k = [] := by
    intro h1 hx
    rw [Get_eq, hdb]
    simp only [hrow, hx, if_true, h1, printf]
    exact ⟨trivial, rowsOf_filter_ne _ _ _ _ _ _⟩
  have hgen : ∀ (w0 w1 : World) (v : α) (ttl : Int),
      Set g w0 k v ttl = (none, w1) → w.rows = w1.rows → faultAt w 1 = none →
      w0.now + (if ttl > 0 then wrapInt64 (ttl * Second) else 1 * Hour) < w.now →
      (Get g w k).1 = none ∧ rowsOf (Get g w k).2 k = [] := by
    intro w0 w1 v ttl hset hrows h1 ht
    obtain ⟨b, _, _, hr, _⟩ := Set_ok g w0 w1 k v ttl hset
    have hlive := liveRow_after_insert w w0.rows k _ rfl rfl (hrows.trans hr)
    rw [hrow] at hlive
    cases hlive
    exact hexp h1 ht
  refine ⟨?_, ?_, hgen, ?_⟩
  · intro h1
    constructor
    · rintro ⟨_, hgone⟩
      by_contra hx
      have hrows : (Get g w k).2.rows = w.rows := by
        rw [Get_eq, hdb]
        simp only [hrow, hx, if_false]
      have hmem := liveRow_mem_rowsOf w k r hrow
      unfold rowsOf at hgone hmem
      rw [hrows] at hgone
      rw [hgone] at hmem
      simp at hmem
    · exact hexp h1
  · intro hx
    refine ⟨?_, ?_, ?_⟩
    · rw [GetCacheByKey_eq, hdb]
      simp only [hrow, hx, if_false]
    · rw [Get_eq, hdb]
      simp only [hrow, hx, if_false]
    · rw [Get_eq, hdb]
      simp only [hrow, hx, if_false]
  · intro w0 w1 v ttl hset hrows h1 hpos hsmall ht
    apply hgen w0 w1 v ttl hset hrows h1
    rw [if_pos hpos, wrapInt64_of_range _ (by unfold Second at *; omega) hsmall]
    exact ht

theorem Get_lazy_expiry_witness :
    (((Get sampleGob expiredWorld "a").1 = none ∧
        rowsOf (Get sampleGob expiredWorld "a").2 "a" = []) ↔ (50 : Int) < 100) :=
  (Get_lazy_expiry sampleGob expiredWorld "a"
    { DeletedAt := none, KeyName := "a", Value := [1, 5], ExpiredAt := 50 }
    (by decide) (by decide)).1 (by decide)

/-- C8. `Get` turns every failure into a miss: a failed query, a key without
a live row, an expired row (whatever the purge statement does) and a payload
that does not decode all give `none`; a value is returned exactly when the
query executes, finds a row that is not expired, and the payload of that row
decodes to the value. -/
theorem Get_failure_is_miss {α : Type} (g : Gob α) (w : World) (key : String) :
    (∀ e, faultAt w 0 = some e → (Get g w key).1 = none) ∧
    (liveRow w key = none → (Get g w key).1 = none) ∧
    (∀ r, liveRow w key = some r → r.ExpiredAt < w.now → (Get g w key).1 = none) ∧
    (∀ r e, liveRow w key = some r → deserializer g r.Value = .error e →
      (Get g w key).1 = none) ∧
    (∀ v, (Get g w key).1 = some v ↔
      (faultAt w 0 = none ∧ ∃ r, liveRow w key = some r ∧ ¬ r.ExpiredAt < w.now ∧
        deserializer g r.Value = .ok v)) := by
  have hiff : ∀ v, (Get g w key).1 = some v ↔
      (faultAt w 0 = none ∧ ∃ r, liveRow w key = some r ∧ ¬ r.ExpiredAt < w.now ∧
        deserializer g r.Value = .ok v) := by
    intro v
    rw [Get_eq]
    cases h0 : faultAt w 0 with
    | some e => simp
    | none =>
      cases hr : liveRow w key with
      | none => simp
      | some r =>
        by_cases hx : r.ExpiredAt < w.now
        · simp only [hx, if_true]
          cases h1 : faultAt w 1 <;> simp [hx]
        · simp only [hx, if_false]
          have hx2 : w.now ≤ r.ExpiredAt := not_lt.mp hx
          cases hd : deserializer g r.Value <;> simp [hx2, hd]
  have hnone : ∀ (P : Prop), (∀ v, (Get g w key).1 = some v → P → False) → P →
      (Get g w key).1 = none := by
    intro P hP p
    cases hget : (Get g w key).1 with
    | none => rfl
    | some v => exact (hP v hget p).elim
  refine ⟨?_, ?_, ?_, ?_, hiff⟩
  · intro e he
    refine hnone _ (fun v hv _ => ?_) trivial
    have := ((hiff v).mp hv).1
    rw [he] at this
    cases this
  · intro hno
    refine hnone _ (fun v hv _ => ?_) trivial
    obtain ⟨_, r, hr, _⟩ := (hiff v).mp hv
    rw [hno] at hr
    cases hr
  · intro r hr hx
    refine hnone _ (fun v hv _ => ?_) trivial
    obtain ⟨_, r1, hr1, hx1, _⟩ := (hiff v).mp hv
    rw [hr] at hr1
    cases hr1
    exact hx1 hx
  · intro r e hr hd
    refine hnone _ (fun v hv _ => ?_) trivial
    obtain ⟨_, r1, hr1, _, hd1⟩ := (hiff v).mp hv
    rw [hr] at hr1
    cases hr1
    rw [hd] at hd1
    cases hd1

theorem Get_failure_is_miss_witness :
    (Get sampleGob faultyWorld "a").1 = none ∧ (Get sampleGob expiredWorld "a").1 = none :=
  ⟨(Get_failure_is_miss sampleGob faultyWorld "a").1 "driver: bad connection" (by decide),
   (Get_failure_is_miss sampleGob expiredWorld "a").2.2.1
     { DeletedAt := none, KeyName := "a", Value := [1, 5], ExpiredAt := 50 }
     (by decide) (by decide)⟩

theorem Sets_prefix_unused {α : Type} (g : Gob α) (pfx : String) :
    ∀ (values : List (String × α)) (w : World), Sets g w values pfx = Sets g w values "" := by
  intro values
  induction values with
  | nil => intro w; rfl
  | cons kv rest ih =>
    intro w
    obtain ⟨key, value⟩ := kv
    unfold Sets
    cases hres : Set g w key value 0 with
    | mk err w1 =>
      cases err with
      | some e => rfl
      | none => exact ih w1

/-- C4. `Sets` stores under the bare key: a `Sets` with any prefix does what
it does with the empty prefix; after `Sets` of the entries `a` and `b` with
the prefix `p` on an empty table, the rows are keyed `a` and `b`, and `Gets`
of `a`, `b`, `c` with the same prefix, well within the hour, finds nothing
and reports all three keys missed, where the empty prefix gives the two hits
and the one miss. -/
theorem Sets_ignores_prefix :
    (∀ (α : Type) (g : Gob α) (w : World) (values : List (String × α)) (pfx : String),
      Sets g w values pfx = Sets g w values "") ∧
    (Sets sampleGob sampleWorld [("a", 1), ("b", 2)] "p").1 = none ∧
    (Sets sampleGob sampleWorld [("a", 1), ("b", 2)] "p").2.rows.map Cache.KeyName = ["a", "b"] ∧
    (Gets sampleGob (Sets sampleGob sampleWorld [("a", 1), ("b", 2)] "p").2
      ["a", "b", "c"] "p").1 = ([], ["a", "b", "c"]) ∧
    (Gets sampleGob (Sets sampleGob sampleWorld [("a", 1), ("b", 2)] "").2
      ["a", "b", "c"] "").1 = ([("a", 1), ("b", 2)], ["c"]) :=
  ⟨fun _ g w values pfx => Sets_prefix_unused g pfx values w,
   by decide, by decide, by decide, by decide⟩

/-- C5, as stated, fails: with the clock at 100 a `Set` with a time to live of
9223372037 seconds returns nil and writes a row whose expiry is not
`now + ttl` seconds but lies before `now`. -/
theorem Set_expiry_wraps :
    (Set sampleGob sampleWorld "a" 5 9223372037).1 = none ∧
    (Set sampleGob sampleWorld "a" 5 9223372037).2.rows =
      [{ DeletedAt := none, KeyName := "a", Value := [1, 5],
         ExpiredAt := -9223372036709551516 }] ∧
    (-9223372036709551516 : Int) ≠ sampleWorld.now + 9223372037 * Second ∧
    (-9223372036709551516 : Int) < sampleWorld.now := by
  decide

/-- C5, amended. The row written by a `Set` that returns nil is the last row
of the table, carries the key, and expires at `now` plus one hour when
`ttl ≤ 0`, at `now` plus `ttl` seconds (hence not before `now`) when
`0 < ttl ≤ maxTtl`, and in general for `0 < ttl` at `now` plus the int64
product of `ttl` and `time.Second`. -/
theorem Set_expiry {α : Type} (g : Gob α) (w w1 : World) (key : String) (value : α) (ttl : Int)
    (hset : Set g w key value ttl = (none, w1)) :
    ∃ row, w1.rows.getLast? = some row ∧ row.KeyName = key ∧
      (ttl ≤ 0 → row.ExpiredAt = w.now + 3600 * 1000000000) ∧
      (0 < ttl → ttl ≤ maxTtl →
        row.ExpiredAt = w.now + ttl * 1000000000 ∧ w.now ≤ row.ExpiredAt) ∧
      (0 < ttl → row.ExpiredAt = w.now + wrapInt64 (ttl * 1000000000)) := by
  obtain ⟨b, _, _, hr, _⟩ := Set_ok g w w1 key value ttl hset
  refine ⟨{ DeletedAt := none, KeyName := key, Value := b,
            ExpiredAt := w.now + (if ttl > 0 then wrapInt64 (ttl * Second)
                                  else 1 * Hour) },
    by rw [hr]; simp, rfl, ?_, ?_, ?_⟩
  · intro h
    have hn : ¬ ttl > 0 := by omega
    simp only [hn, if_false, Hour, Second]
    norm_num
  · intro h0 h1
    have hp : ttl > 0 := h0
    simp only [hp, if_true, Second]
    unfold maxTtl at h1
    rw [wrapInt64_of_range _ (by omega) (by omega)]
    refine ⟨rfl, ?_⟩
    have hnn : (0 : Int) ≤ ttl * 1000000000 := by omega
    exact le_add_of_nonneg_right hnn
  · intro h0
    have hp : ttl > 0 := h0
    simp only [hp, if_true, Second]

theorem Set_expiry_witness :
    ∃ row, (Set sampleGob sampleWorld "a" 5 3).2.rows.getLast? = some row ∧ row.KeyName = "a" ∧
      ((3 : Int) ≤ 0 → row.ExpiredAt = sampleWorld.now + 3600 * 1000000000) ∧
      ((0 : Int) < 3 → (3 : Int) ≤ maxTtl →
        row.ExpiredAt = sampleWorld.now + 3 * 1000000000 ∧ sampleWorld.now ≤ row.ExpiredAt) ∧
      ((0 : Int) < 3 → row.ExpiredAt = sampleWorld.now + wrapInt64 (3 * 1000000000)) :=
  Set_expiry sampleGob sampleWorld (Set sampleGob sampleWorld "a" 5 3).2 "a" 5 3 (by decide)

/-- C9, as stated, fails: on an empty table whose delete statement fails and
whose insert executes, `DeleteCacheByKey` returns an error and `SaveCache`
returns nil, the row being inserted. -/
theorem SaveCache_drops_delete_error :
    (DeleteCacheByKey faultyWorld sampleRow.KeyName).1 = some "driver: bad connection" ∧
    (SaveCache faultyWorld sampleRow).1 = none ∧
    (SaveCache faultyWorld sampleRow).2.rows = [sampleRow] := by
  decide

/-- C9, amended. `SaveCache` runs the hard delete of the key and then the
insert, and returns the result of the insert: an insert that fails is
returned as the error; when both statements execute the table holds the
other rows followed by the new one; the error of a failed delete is
discarded, so that `SaveCache` then returns nil when no row holds the key
and the insert is accepted, and the duplicate-key error of the insert when a
row still holds it.  Whenever `SaveCache` returns nil the new row is in the
table and no other row holds its key. -/
theorem SaveCache_returns_insert_result (w : World) (cache : Cache) :
    SaveCache w cache = dbSave (DeleteCacheByKey w cache.KeyName).2 cache ∧
    (∀ e, faultAt w 1 = some e → (SaveCache w cache).1 = some e) ∧
    (faultAt w 1 = none → valueCapacity < cache.Value.length →
      (SaveCache w cache).1 = some "Data too long for column 'value'") ∧
    (faultAt w 0 = none → faultAt w 1 = none → cache.Value.length ≤ valueCapacity →
      (SaveCache w cache).1 = none ∧
      (SaveCache w cache).2.rows
        = w.rows.filter (fun r => r.KeyName != cache.KeyName) ++ [cache]) ∧
    (∀ e, faultAt w 0 = some e → faultAt w 1 = none → cache.Value.length ≤ valueCapacity →
      rowsOf w cache.KeyName = [] →
      (SaveCache w cache).1 = none ∧ (SaveCache w cache).2.rows = w.rows ++ [cache]) ∧
    (∀ e, faultAt w 0 = some e → faultAt w 1 = none → cache.Value.length ≤ valueCapacity →
      rowsOf w cache.KeyName ≠ [] →
      (SaveCache w cache).1 = some "Duplicate entry for key 'idx_only_one_key_name'" ∧
      (SaveCache w cache).2.rows = w.rows) ∧
    (∀ w1, SaveCache w cache = (none, w1) →
      w1.rows = w.rows.filter (fun r => r.KeyName != cache.KeyName) ++ [cache]) := by
  refine ⟨rfl, ?_, ?_, ?_, ?_, ?_, fun w1 h => (SaveCache_ok w w1 cache h).1⟩
  · intro e h1
    rw [SaveCache_eq, dbSave_eq]
    cases h0 : faultAt w 0 <;> simp [faultAt_tail, h1]
  · intro h1 hlen
    rw [SaveCache_eq, dbSave_eq]
    cases h0 : faultAt w 0 <;> simp [faultAt_tail, h1, hlen]
  · intro h0 h1 hlen
    have hl : ¬ valueCapacity < cache.Value.length := by omega
    rw [SaveCache_eq, dbSave_eq]
    simp only [h0, faultAt_tail, h1, hl, if_false, any_filter_ne]
    simp
  · intro e h0 h1 hlen hnone
    have hl : ¬ valueCapacity < cache.Value.length := by omega
    have hany : w.rows.any (fun r => r.KeyName == cache.KeyName) = false := by
      unfold rowsOf at hnone
      rw [List.filter_eq_nil_iff] at hnone
      rw [List.any_eq_false]
      exact hnone
    rw [SaveCache_eq, dbSave_eq]
    simp only [h0, faultAt_tail, h1, hl, if_false, hany]
    simp
  · intro e h0 h1 hlen hsome
    have hl : ¬ valueCapacity < cache.Value.length := by omega
    have hany : w.rows.any (fun r => r.KeyName == cache.KeyName) = true := by
      unfold rowsOf at hsome
      rw [Ne, List.filter_eq_nil_iff] at hsome
      rw [List.any_eq_true]
      push_neg at hsome
      exact hsome
    rw [SaveCache_eq, dbSave_eq]
    simp only [h0, faultAt_tail, h1, hl, if_false, hany]
    simp

theorem SaveCache_returns_insert_result_witness :
    (SaveCache sampleWorld sampleRow).1 = none ∧
    (SaveCache sampleWorld sampleRow).2.rows
      = sampleWorld.rows.filter (fun r => r.KeyName != sampleRow.KeyName) ++ [sampleRow] :=
  (SaveCache_returns_insert_result sampleWorld sampleRow).2.2.2.1
    (by decide) (by decide) (by decide)

/-- C10, as stated, fails: a `Get` of a key whose row is expired, with a
working database, purges the row, misses, and prints a line. -/
theorem Get_logs_expired_row :
    faultAt expiredWorld 0 = none ∧ faultAt expiredWorld 1 = none ∧
    (Get sampleGob expiredWorld "a").1 = none ∧
    (Get sampleGob expiredWorld "a").2.rows = [] ∧
    (Get sampleGob expiredWorld "a").2.log = ["DBCacheStore Get: a, expired cache \n"] ∧
    (Get sampleGob expiredWorld "a").2.log ≠ expiredWorld.log := by
  decide

/-- C10, amended. `Get` prints nothing when its query executes and finds no
live row, and when it finds a row that is not expired; it prints one line
when the row is expired (the line of the error `expired cache` when the
purge executes, the line of the purge error otherwise) and when the query
fails; a failure of the query whose message is `record not found` prints
nothing. -/
theorem Get_log_lines {α : Type} (g : Gob α) (w : World) (key : String) :
    (faultAt w 0 = none → liveRow w key = none → (Get g w key).2.log = w.log) ∧
    (∀ r, faultAt w 0 = none → liveRow w key = some r → ¬ r.ExpiredAt < w.now →
      (Get g w key).2.log = w.log) ∧
    (∀ r, faultAt w 0 = none → liveRow w key = some r → r.ExpiredAt < w.now →
      faultAt w 1 = none →
      (Get g w key).2.log = w.log ++ [getLogLine key "expired cache"]) ∧
    (∀ r e, faultAt w 0 = none → liveRow w key = some r → r.ExpiredAt < w.now →
      faultAt w 1 = some e → e ≠ errRecordNotFound →
      (Get g w key).2.log = w.log ++ [getLogLine key e]) ∧
    (∀ e, faultAt w 0 = some e → e ≠ errRecordNotFound →
      (Get g w key).2.log = w.log ++ [getLogLine key e]) ∧
    (faultAt w 0 = some errRecordNotFound → (Get g w key).2.log = w.log) := by
  refine ⟨?_, ?_, ?_, ?_, ?_, ?_⟩
  · intro h0 hr
    rw [Get_eq, h0]
    simp only [hr]
  · intro r h0 hr hx
    rw [Get_eq, h0]
    simp only [hr, hx, if_false]
  · intro r h0 hr hx h1
    rw [Get_eq, h0]
    simp only [hr, hx, if_true, h1, printf]
  · intro r e h0 hr hx h1 he
    have hb : (e != errRecordNotFound) = true := by simpa [bne_iff_ne] using he
    rw [Get_eq, h0]
    simp only [hr, hx, if_true, h1, hb, printf]
  · intro e h0 he
    have hb : (e != errRecordNotFound) = true := by simpa [bne_iff_ne] using he
    rw [Get_eq, h0]
    simp only [hb, if_true, printf]
  · intro h0
    rw [Get_eq, h0]
    simp

theorem Get_log_lines_witness :
    (Get sampleGob sampleWorld "a").2.log = sampleWorld.log ∧
    (Get sampleGob faultyWorld "a").2.log
      = faultyWorld.log ++ [getLogLine "a" "driver: bad connection"] :=
  ⟨(Get_log_lines sampleGob sampleWorld "a").1 (by decide) (by decide),
   (Get_log_lines sampleGob faultyWorld "a").2.2.2.2.1 "driver: bad connection"
     (by decide) (by decide)⟩

theorem liveRow_none_of_rowsOf_nil (w : World) (key : String) (h : rowsOf w key = []) :
    liveRow w key = none := by
  unfold rowsOf at h
  unfold liveRow
  rw [List.filter_eq_nil_iff] at h
  rw [List.find?_eq_none]
  intro r hr
  have := h r hr
  simp only [Bool.not_eq_true] at this
  simp [this]

theorem Get_none_of_no_live_row {α : Type} (g : Gob α) (w : World) (key : String)
    (h : liveRow w key = none) : (Get g w key).1 = none := by
  rw [Get_eq]
  cases faultAt w 0 <;> simp [h]

theorem Get_rows_sublist {α : Type} (g : Gob α) (w : World) (key : String) :
    (Get g w key).2.rows.Sublist w.rows := by
  rw [Get_eq]
  cases h0 : faultAt w 0 with
  | some e => by_cases he : (e != errRecordNotFound) = true <;> simp [he, printf]
  | none =>
    cases hr : liveRow w key with
    | none => simp
    | some r =>
      by_cases hx : r.ExpiredAt < w.now
      · simp only [hx, if_true]
        cases h1 : faultAt w 1 with
        | some e => by_cases he : (e != errRecordNotFound) = true <;> simp [he, printf]
        | none => simp [printf, List.filter_sublist]
      · simp [hx]

theorem UniqueKeys_sublist (rows rows1 : List Cache) (hs : rows1.Sublist rows)
    (hu : UniqueKeys rows) : UniqueKeys rows1 := by
  unfold UniqueKeys at *
  exact List.Nodup.sublist (hs.map _) hu

theorem DeleteLoop_ok (keys0 : List String) (pfx : String) :
    ∀ (keys : List String) (w w1 : World), DeleteLoop keys0 pfx keys w = (none, w1) →
      w1.rows = w.rows.filter (fun r => keys.all (fun k => r.KeyName != pfx ++ k)) := by
  intro keys
  induction keys with
  | nil =>
    intro w w1 h
    simp only [DeleteLoop, Prod.mk.injEq, true_and] at h
    subst h
    simp
  | cons key rest ih =>
    intro w w1 h
    unfold DeleteLoop at h
    simp only [DeleteCacheByKey, dbDeleteWhereKey_eq] at h
    cases h0 : faultAt w 0 with
    | some e => simp [h0] at h
    | none =>
      simp only [h0] at h
      have := ih _ _ h
      rw [this]
      simp only [printf, List.filter_filter, List.all_cons]
      apply List.filter_congr
      intro r _
      exact Bool.and_comm _ _

theorem DeleteLoop_rows_sublist (keys0 : List String) (pfx : String) :
    ∀ (keys : List String) (w : World), (DeleteLoop keys0 pfx keys w).2.rows.Sublist w.rows := by
  intro keys
  induction keys with
  | nil => intro w; simp [DeleteLoop]
  | cons key rest ih =>
    intro w
    unfold DeleteLoop
    simp only [DeleteCacheByKey, dbDeleteWhereKey_eq]
    cases h0 : faultAt w 0 with
    | some e => simp [printf]
    | none =>
      simp only
      refine (ih _).trans ?_
      simp [printf, List.filter_sublist]

/-- C7. `Delete` removes exactly the prefixed keys: when `Delete` (or
`Deletes`, which is the same function) returns nil, the table is the former
one without the rows keyed `prefix + k` for a `k` of the list, so that every
other row is still there, in place; a later `Get` of such a prefixed key
misses, whatever the clock and the database do; and deleting a key that has
no row, the statement executing, returns nil and changes no row. -/
theorem Delete_removes_prefixed_keys {α : Type} (g : Gob α) (w w1 : World)
    (keys : List String) (pfx : String) (hdel : Delete w keys pfx = (none, w1)) :
    Deletes w keys pfx = Delete w keys pfx ∧
    w1.rows = w.rows.filter (fun r => keys.all (fun k => r.KeyName != pfx ++ k)) ∧
    (∀ r ∈ w.rows, (∀ k ∈ keys, r.KeyName ≠ pfx ++ k) → r ∈ w1.rows) ∧
    (∀ k ∈ keys, rowsOf w1 (pfx ++ k) = []) ∧
    (∀ k ∈ keys, ∀ wg : World, wg.rows = w1.rows → (Get g wg (pfx ++ k)).1 = none) ∧
    (∀ (u : World) (key : String), faultAt u 0 = none → rowsOf u key = [] →
      (DeleteCacheByKey u key).1 = none ∧ (DeleteCacheByKey u key).2.rows = u.rows) ∧
    (∀ (u : World) (k : String), faultAt u 0 = none → rowsOf u (pfx ++ k) = [] →
      (Delete u [k] pfx).1 = none ∧ (Delete u [k] pfx).2.rows = u.rows) := by
  have hrows := DeleteLoop_ok keys pfx keys w w1 hdel
  have hgone : ∀ k ∈ keys, ∀ wg : World, wg.rows = w1.rows → rowsOf wg (pfx ++ k) = [] := by
    intro k hk wg hwg
    unfold rowsOf
    rw [hwg, hrows, List.filter_eq_nil_iff]
    intro r hr
    have hall := (List.mem_filter.mp hr).2
    have := (List.all_eq_true.mp hall) k hk
    simpa [bne] using this
  have hnoop : ∀ (u : World) (key : String), faultAt u 0 = none → rowsOf u key = [] →
      (DeleteCacheByKey u key).1 = none ∧ (DeleteCacheByKey u key).2.rows = u.rows := by
    intro u key h0 hno
    unfold DeleteCacheByKey
    rw [dbDeleteWhereKey_eq, h0]
    refine ⟨rfl, ?_⟩
    unfold rowsOf at hno
    rw [List.filter_eq_nil_iff] at hno
    apply filter_ne_of_not_any
    rw [List.any_eq_false]
    exact hno
  refine ⟨rfl, hrows, ?_, fun k hk => hgone k hk w1 rfl, ?_, hnoop, ?_⟩
  · intro r hr hne
    rw [hrows]
    refine List.mem_filter.mpr ⟨hr, ?_⟩
    rw [List.all_eq_true]
    intro k hk
    simpa [bne_iff_ne] using hne k hk
  · intro k hk wg hwg
    exact Get_none_of_no_live_row g wg _ (liveRow_none_of_rowsOf_nil _ _ (hgone k hk wg hwg))
  · intro u k h0 hno
    have := hnoop u (pfx ++ k) h0 hno
    unfold DeleteCacheByKey at this
    unfold Delete DeleteLoop DeleteLoop
    simp only [DeleteCacheByKey]
    rw [dbDeleteWhereKey_eq, h0] at this ⊢
    exact ⟨rfl, this.2⟩

theorem Delete_removes_prefixed_keys_witness :
    (Delete prefixedWorld ["a"] "p").2.rows
        = prefixedWorld.rows.filter (fun r => ["a"].all (fun k => r.KeyName != "p" ++ k)) ∧
      ∀ k ∈ ["a"], rowsOf (Delete prefixedWorld ["a"] "p").2 ("p" ++ k) = [] :=
  have h := Delete_removes_prefixed_keys sampleGob prefixedWorld
    (Delete prefixedWorld ["a"] "p").2 ["a"] "p" (by decide)
  ⟨h.2.1, h.2.2.2.1⟩

theorem UniqueKeys_filter (rows : List Cache) (p : Cache → Bool) (hu : UniqueKeys rows) :
    UniqueKeys (rows.filter p) :=
  UniqueKeys_sublist rows _ (List.filter_sublist rows) hu

theorem UniqueKeys_append_one (rows : List Cache) (c : Cache) (hu : UniqueKeys rows)
    (hany : rows.any (fun r => r.KeyName == c.KeyName) = false) :
    UniqueKeys (rows ++ [c]) := by
  unfold UniqueKeys at *
  rw [List.map_append, List.nodup_append]
  refine ⟨hu, by simp, ?_⟩
  intro k hk hk2
  simp only [List.map_cons, List.map_nil, List.mem_singleton] at hk2
  subst hk2
  obtain ⟨r, hr, hrk⟩ := List.mem_map.mp hk
  have := (List.any_eq_false.mp hany) r hr
  simp [hrk] at this

theorem SaveCache_unique (w : World) (cache : Cache) (hu : UniqueKeys w.rows) :
    UniqueKeys (SaveCache w cache).2.rows := by
  rw [SaveCache_eq, dbSave_eq]
  cases h0 : faultAt w 0 with
  | some e =>
    simp only [faultAt_tail]
    cases h1 : faultAt w 1 with
    | some e1 => exact hu
    | none =>
      simp only
      split_ifs with hc hd
      · exact hu
      · exact hu
      · exact UniqueKeys_append_one _ _ hu ((Bool.not_eq_true _).mp hd)
  | none =>
    simp only [faultAt_tail]
    cases h1 : faultAt w 1 with
    | some e1 => exact UniqueKeys_filter _ _ hu
    | none =>
      simp only
      split_ifs with hc hd
      · exact UniqueKeys_filter _ _ hu
      · exact UniqueKeys_filter _ _ hu
      · exact UniqueKeys_append_one _ _ (UniqueKeys_filter _ _ hu) ((Bool.not_eq_true _).mp hd)

theorem Set_unique {α : Type} (g : Gob α) (w : World) (key : String) (value : α) (ttl : Int)
    (hu : UniqueKeys w.rows) : UniqueKeys (Set g w key value ttl).2.rows := by
  unfold Set
  cases hs : serializer g value with
  | error e => exact hu
  | ok b =>
    simp only [timeNow_eq]
    split
    · rename_i err w2 hsave
      have h2 := congrArg (fun x => x.2.rows) hsave
      simp only at h2
      simp only [printf]
      rw [← h2]
      exact SaveCache_unique _ _ hu
    · rename_i w2 hsave
      have h2 := congrArg (fun x => x.2.rows) hsave
      simp only at h2
      rw [← h2]
      exact SaveCache_unique _ _ hu

theorem Sets_unique {α : Type} (g : Gob α) (pfx : String) :
    ∀ (values : List (String × α)) (w : World), UniqueKeys w.rows →
      UniqueKeys (Sets g w values pfx).2.rows := by
  intro values
  induction values with
  | nil => intro w hu; simpa [Sets] using hu
  | cons kv rest ih =>
    intro w hu
    obtain ⟨key, value⟩ := kv
    unfold Sets
    have hset := Set_unique g w key value 0 hu
    cases hres : Set g w key value 0 with
    | mk err w1 =>
      rw [hres] at hset
      cases err with
      | some e => exact hset
      | none => exact ih w1 hset

theorem GetsLoop_rows_sublist {α : Type} (g : Gob α) (pfx : String) :
    ∀ (keys : List String) (res : GoMap α) (missed : List String) (w : World),
      (GetsLoop g pfx keys res missed w).2.rows.Sublist w.rows := by
  intro keys
  induction keys with
  | nil => intro res missed w; simp [GetsLoop]
  | cons key rest ih =>
    intro res missed w
    unfold GetsLoop
    have hget := Get_rows_sublist g w (pfx ++ key)
    cases hres : Get g w (pfx ++ key) with
    | mk o w1 =>
      rw [hres] at hget
      cases o with
      | none => exact (ih _ _ w1).trans hget
      | some val => exact (ih _ _ w1).trans hget

theorem DeleteAll_rows_sublist (w : World) : (DeleteAll w).2.rows.Sublist w.rows := by
  unfold DeleteAll DeleteAllCache dbDeleteAll
  rw [popFault_eq]
  cases faultAt w 0 <;> simp

/-- C3. Last write wins, one row per key: when two `Set` calls on the same
key both return nil, the second value being encodable, the table holds
exactly one row under the key after each of them and a `Get` whose query
reaches the database not after the second expiry returns the second value; and every operation of the store
(`Set`, `Sets`, `Get`, `Gets`, `Delete`, `Deletes`, `DeleteAll`), run on a
table with at most one row per key, leaves at most one row per key. -/
theorem Set_last_write_wins {α : Type} (g : Gob α) (w w1 w2 wg : World) (k : String)
    (v1 v2 : α) (ttl1 ttl2 : Int)
    (henc2 : ∃ b, serializer g v2 = .ok b ∧ deserializer g b = .ok v2)
    (hset1 : Set g w k v1 ttl1 = (none, w1))
    (hset2 : Set g w1 k v2 ttl2 = (none, w2))
    (hrows : wg.rows = w2.rows)
    (hdb : faultAt wg 0 = none)
    (htime : wg.now ≤ w1.now + (if ttl2 > 0 then wrapInt64 (ttl2 * Second)
                                 else 1 * Hour)) :
    (Get g wg k).1 = some v2 ∧
    (rowsOf w1 k).length = 1 ∧
    (rowsOf w2 k).length = 1 ∧
    (∀ u : World, UniqueKeys u.rows →
      (∀ (key : String) (v : α) (ttl : Int), UniqueKeys (Set g u key v ttl).2.rows) ∧
      (∀ (values : List (String × α)) (pfx : String), UniqueKeys (Sets g u values pfx).2.rows) ∧
      (∀ key : String, UniqueKeys (Get g u key).2.rows) ∧
      (∀ (keys : List String) (pfx : String), UniqueKeys (Gets g u keys pfx).2.rows) ∧
      (∀ (keys : List String) (pfx : String), UniqueKeys (Delete u keys pfx).2.rows) ∧
      (∀ (keys : List String) (pfx : String), UniqueKeys (Deletes u keys pfx).2.rows) ∧
      UniqueKeys (DeleteAll u).2.rows) := by
  obtain ⟨b, hb, hdec⟩ := henc2
  obtain ⟨b1, hb1, _, hr, _⟩ := Set_ok g w1 w2 k v2 ttl2 hset2
  rw [hb] at hb1
  cases hb1
  obtain ⟨_, _, _, hr1, _⟩ := Set_ok g w w1 k v1 ttl1 hset1
  refine ⟨?_, ?_, ?_, ?_⟩
  · have hlive := liveRow_after_insert wg w1.rows k _ rfl rfl (hrows.trans hr)
    rw [Get_eq, hdb]
    simp only [hlive]
    rw [if_neg (by simp only [not_lt]; exact htime)]
    simp [hdec]
  · rw [rowsOf_after_insert w1 w.rows k _ rfl hr1]
    rfl
  · rw [rowsOf_after_insert w2 w1.rows k _ rfl hr]
    rfl
  · intro u hu
    refine ⟨fun key v ttl => Set_unique g u key v ttl hu,
      fun values pfx => Sets_unique g pfx values u hu,
      fun key => UniqueKeys_sublist _ _ (Get_rows_sublist g u key) hu,
      fun keys pfx => UniqueKeys_sublist _ _ (GetsLoop_rows_sublist g pfx keys _ _ u) hu,
      fun keys pfx => UniqueKeys_sublist _ _ (DeleteLoop_rows_sublist keys pfx keys u) hu,
      fun keys pfx => UniqueKeys_sublist _ _ (DeleteLoop_rows_sublist keys pfx keys u) hu,
      UniqueKeys_sublist _ _ (DeleteAll_rows_sublist u) hu⟩

theorem Set_last_write_wins_witness :
    (Get sampleGob (Set sampleGob (Set sampleGob sampleWorld "a" 5 3).2 "a" 7 4).2 "a").1
        = some 7 ∧
      (rowsOf (Set sampleGob (Set sampleGob sampleWorld "a" 5 3).2 "a" 7 4).2 "a").length = 1 :=
  have h := Set_last_write_wins sampleGob sampleWorld (Set sampleGob sampleWorld "a" 5 3).2
    (Set sampleGob (Set sampleGob sampleWorld "a" 5 3).2 "a" 7 4).2
    (Set sampleGob (Set sampleGob sampleWorld "a" 5 3).2 "a" 7 4).2 "a" 5 7 3 4
    ⟨[1, 7], rfl, rfl⟩ (by decide) (by decide) rfl (by decide) (by decide)
  ⟨h.1, h.2.2.1⟩

theorem GoMap_get_nil {α : Type} (k : String) : GoMap.get ([] : GoMap α) k = none := rfl

theorem GoMap_get_set_self {α : Type} (m : GoMap α) (k : String) (v : α) :
    (m.set k v).get k = some v := by
  unfold GoMap.set GoMap.get
  rw [List.find?_append]
  have h1 : (m.filter (fun e => e.1 != k)).find? (fun e => e.1 == k) = none := by
    rw [List.find?_eq_none]
    intro e he
    have := (List.mem_filter.mp he).2
    simpa [bne] using this
  rw [h1]
  simp

theorem GoMap_get_set_ne {α : Type} (m : GoMap α) (k k1 : String) (v : α) (hne : k1 ≠ k) :
    (m.set k v).get k1 = m.get k1 := by
  unfold GoMap.set GoMap.get
  rw [List.find?_append]
  have h2 : ([(k, v)] : List (String × α)).find? (fun e => e.1 == k1) = none := by
    simp [Ne.symm hne]
  rw [h2, Option.or_none]
  congr 1
  induction m with
  | nil => rfl
  | cons e rest ih =>
    obtain ⟨ek, ev⟩ := e
    by_cases hk : ek = k
    · subst hk
      have hb : (ek == k1) = false := by simpa using hne.symm
      simp [List.filter_cons, List.find?_cons, hb, ih]
    · by_cases hk1 : ek = k1
      · subst hk1
        simp [List.filter_cons, List.find?_cons, hk]
      · have hb : (ek == k1) = false := by simpa using hk1
        simp [List.filter_cons, List.find?_cons, hk, hb, ih]

/-- The loop of `Gets`, started with any content of `res` and `missed`. -/
theorem GetsLoop_spec {α : Type} (g : Gob α) (pfx : String) :
    ∀ (keys : List String) (res : GoMap α) (missed : List String) (w : World),
      (GetsLoop g pfx keys res missed w).1.2 =
          missed ++ ((keys.zip (GetsTurns g pfx keys w)).filter
            (fun kt => kt.2.isNone)).map Prod.fst ∧
      (∀ k, ((GetsLoop g pfx keys res missed w).1.1.get k).isSome ↔
        ((res.get k).isSome ∨
          ∃ kt ∈ keys.zip (GetsTurns g pfx keys w), kt.1 = k ∧ kt.2.isSome)) ∧
      (∀ k v, (GetsLoop g pfx keys res missed w).1.1.get k = some v →
        (res.get k = some v ∨ (k, some v) ∈ keys.zip (GetsTurns g pfx keys w))) := by
  intro keys
  induction keys with
  | nil =>
    intro res missed w
    simp [GetsLoop, GetsTurns]
  | cons key rest ih =>
    intro res missed w
    unfold GetsLoop GetsTurns
    cases hres : Get g w (pfx ++ key) with
    | mk o w1 =>
      cases o with
      | none =>
        obtain ⟨h1, h2, h3⟩ := ih res (missed ++ [key]) w1
        refine ⟨?_, ?_, ?_⟩
        · simp only [h1, List.zip_cons_cons, List.filter_cons, Option.isNone_none, if_true,
            List.map_cons, List.append_assoc, List.singleton_append]
        · intro k
          rw [h2 k]
          simp [List.zip_cons_cons]
        · intro k v hv
          rcases h3 k v hv with h | h
          · exact Or.inl h
          · exact Or.inr (List.mem_cons_of_mem _ h)
      | some val =>
        obtain ⟨h1, h2, h3⟩ := ih (res.set key val) missed w1
        refine ⟨?_, ?_, ?_⟩
        · simp only [h1, List.zip_cons_cons, List.filter_cons, Option.isNone_some,
            Bool.false_eq_true, if_false]
        · intro k
          rw [h2 k]
          by_cases hk : k = key
          · subst hk
            simp [List.zip_cons_cons, GoMap_get_set_self]
          · have hk2 : ¬ key = k := fun h => hk h.symm
            simp [List.zip_cons_cons, GoMap_get_set_ne _ _ _ _ hk, hk2]
        · intro k v hv
          rcases h3 k v hv with h | h
          · by_cases hk : k = key
            · subst hk
              rw [GoMap_get_set_self] at h
              cases h
              exact Or.inr (List.mem_cons_self _ _)
            · rw [GoMap_get_set_ne _ _ _ _ hk] at h
              exact Or.inl h
          · exact Or.inr (List.mem_cons_of_mem _ h)

theorem GetsTurns_length {α : Type} (g : Gob α) (pfx : String) :
    ∀ (keys : List String) (w : World), (GetsTurns g pfx keys w).length = keys.length := by
  intro keys
  induction keys with
  | nil => intro w; rfl
  | cons key rest ih => intro w; simp [GetsTurns, ih]

theorem GetsTurns_covers {α : Type} (g : Gob α) (pfx : String) :
    ∀ (keys : List String) (w : World), ∀ k ∈ keys,
      ∃ t, (k, t) ∈ keys.zip (GetsTurns g pfx keys w) := by
  intro keys
  induction keys with
  | nil => intro w k hk; cases hk
  | cons key rest ih =>
    intro w k hk
    unfold GetsTurns
    rcases List.mem_cons.mp hk with h | h
    · subst h
      exact ⟨_, List.mem_cons_self _ _⟩
    · obtain ⟨t, ht⟩ := ih (Get g w (pfx ++ key)).2 k h
      exact ⟨t, List.mem_cons_of_mem _ ht⟩

/-- C6. `Gets` partitions its key list: the missed keys are exactly the keys
whose `Get` of `prefix + key` missed at its turn, in the order of the list;
a key is in the hits exactly when a `Get` of `prefix + key` found a value at
one of its turns, and the hits hold for it, under the bare key, a value
decoded at such a turn; every key of the list is in the hits or among the
missed keys, and there are no more missed keys than keys. -/
theorem Gets_partitions {α : Type} (g : Gob α) (w : World) (keys : List String)
    (pfx : String) :
    (Gets g w keys pfx).1.2 =
        ((keys.zip (GetsTurns g pfx keys w)).filter (fun kt => kt.2.isNone)).map Prod.fst ∧
    (∀ k, ((Gets g w keys pfx).1.1.get k).isSome ↔
      ∃ kt ∈ keys.zip (GetsTurns g pfx keys w), kt.1 = k ∧ kt.2.isSome) ∧
    (∀ k v, (Gets g w keys pfx).1.1.get k = some v →
      (k, some v) ∈ keys.zip (GetsTurns g pfx keys w)) ∧
    (∀ k ∈ keys, ((Gets g w keys pfx).1.1.get k).isSome ∨ k ∈ (Gets g w keys pfx).1.2) ∧
    (Gets g w keys pfx).1.2.length ≤ keys.length := by
  obtain ⟨h1, h2, h3⟩ := GetsLoop_spec g pfx keys [] [] w
  have hm : (Gets g w keys pfx).1.2 =
      ((keys.zip (GetsTurns g pfx keys w)).filter (fun kt => kt.2.isNone)).map Prod.fst := by
    unfold Gets
    rw [h1]
    rfl
  have hh : ∀ k, ((Gets g w keys pfx).1.1.get k).isSome ↔
      ∃ kt ∈ keys.zip (GetsTurns g pfx keys w), kt.1 = k ∧ kt.2.isSome := by
    intro k
    unfold Gets
    rw [h2 k]
    simp [GoMap_get_nil]
  refine ⟨hm, hh, ?_, ?_, ?_⟩
  · intro k v hv
    unfold Gets at hv
    rcases h3 k v hv with h | h
    · rw [GoMap_get_nil] at h
      cases h
    · exact h
  · intro k hk
    obtain ⟨t, ht⟩ := GetsTurns_covers g pfx keys w k hk
    cases t with
    | some v =>
      left
      exact (hh k).mpr ⟨(k, some v), ht, rfl, rfl⟩
    | none =>
      right
      rw [hm]
      exact List.mem_map.mpr ⟨(k, none), List.mem_filter.mpr ⟨ht, rfl⟩, rfl⟩
  · rw [hm, List.length_map]
    refine (List.length_filter_le _ _).trans ?_
    rw [List.length_zip, GetsTurns_length]
    simp

theorem Gets_partitions_witness :
    (Gets sampleGob prefixedWorld ["a", "b", "a"] "p").1.2 = ["b"] ∧
    (Gets sampleGob prefixedWorld ["a", "b", "a"] "p").1.2.length ≤ ["a", "b", "a"].length :=
  ⟨((Gets_partitions sampleGob prefixedWorld ["a", "b", "a"] "p").1).trans (by decide),
   (Gets_partitions sampleGob prefixedWorld ["a", "b", "a"] "p").2.2.2.2⟩

end Cloudreve
